import Mathlib

/-!
# Verification of the `oairs` tokenizer subsystem

A shallow embedding of the tokenizer subsystem of the `oairs` Rust crate:

* `src/tokenizers/models.rs` — model-name → encoding-name resolution
  (`encoding_for_model` over `MODEL_TO_ENCODING` / `MODEL_PREFIX_TO_ENCODING`);
* `src/tokenizers/tokenizer.rs` — the `Tokenizer` and `SpecialToken` enums,
  `recognized_special`, and the `tokenize` / `tokenize_custom` entry points;
* `src/utils/stream_parsers.rs` — the nom-based streaming SSE chunk parsers;
* the Core BPE engine (`vendor_tiktoken.rs` / `openai_public.rs`, vendored
  files not present in the source tree), which is modelled from the
  specification where needed.

Rust `HashMap`s with string keys are embedded as association lists
(`List (String × String)`); for the lookups below the iteration order is
irrelevant because keys are distinct and the match predicates select at most
one entry.  Rust byte slices `&[u8]` are embedded as `List Nat`.
-/

namespace Oairs

/-! ## `src/tokenizers/models.rs` -/

/-- Embedding of `MODEL_PREFIX_TO_ENCODING` from `models.rs`: fallback mapping from a
model-name prefix to an encoding name. -/
def MODEL_PREFIX_TO_ENCODING : List (String × String) :=
  [("gpt-3.5-turbo-", "cl100k_base"),
   ("gpt-4-", "cl100k_base")]

/-- Embedding of `MODEL_TO_ENCODING` from `models.rs`: exact mapping from a model name to
an encoding name.  Note that the two "chat" entries carry a trailing hyphen
in the source. -/
def MODEL_TO_ENCODING : List (String × String) :=
  [("gpt-3.5-turbo-", "cl100k_base"),
   ("gpt-4-", "cl100k_base"),
   ("text-davinci-003", "p50k_base"),
   ("text-davinci-002", "p50k_base"),
   ("text-davinci-001", "r50k_base"),
   ("text-curie-001", "r50k_base"),
   ("text-babbage-001", "r50k_base"),
   ("text-ada-001", "r50k_base"),
   ("davinci", "r50k_base"),
   ("curie", "r50k_base"),
   ("babbage", "r50k_base"),
   ("ada", "r50k_base"),
   ("code-davinci-002", "p50k_base"),
   ("code-davinci-001", "p50k_base"),
   ("code-cushman-002", "p50k_base"),
   ("code-cushman-001", "p50k_base"),
   ("davinci-codex", "p50k_base"),
   ("cushman-codex", "p50k_base"),
   ("text-davinci-edit-001", "p50k_edit"),
   ("code-davinci-edit-001", "p50k_edit"),
   ("text-embedding-ada-002", "cl100k_base"),
   ("text-similarity-davinci-001", "r50k_base"),
   ("text-similarity-curie-001", "r50k_base"),
   ("text-similarity-babbage-001", "r50k_base"),
   ("text-similarity-ada-001", "r50k_base"),
   ("text-search-davinci-doc-001", "r50k_base"),
   ("text-search-curie-doc-001", "r50k_base"),
   ("text-search-babbage-doc-001", "r50k_base"),
   ("text-search-ada-doc-001", "r50k_base"),
   ("code-search-babbage-code-001", "r50k_base"),
   ("code-search-ada-code-001", "r50k_base"),
   ("gpt2", "gpt2")]

/-- The embedding of Rust `str::starts_with`: prefix on the character
sequence (for valid UTF-8 this coincides with byte-level prefix). -/
def strStartsWith (s pre : String) : Bool :=
  pre.data.isPrefixOf s.data

/-- Embedding of `encoding_for_model` from `models.rs`: first an exact-match lookup in
`MODEL_TO_ENCODING`, then a `starts_with` prefix lookup in
`MODEL_PREFIX_TO_ENCODING`, otherwise `None`. -/
def encoding_for_model (model_name : String) : Option String :=
  match MODEL_TO_ENCODING.find? (fun p => p.1 == model_name) with
  | some p => some p.2
  | none =>
    match MODEL_PREFIX_TO_ENCODING.find? (fun p => strStartsWith model_name p.1) with
    | some p => some p.2
    | none => none

/-! ## `src/tokenizers/tokenizer.rs`: enums and special-token registry -/

/-- The `Tokenizer` enum from `tokenizer.rs`: the four encoder/decoder
variants. -/
inductive Tokenizer where
  | R50KBase
  | P50KBase
  | P50KEdit
  | CL100KBase
deriving DecidableEq, Fintype, Repr

/-- Embedding of `Tokenizer::to_str` from `tokenizer.rs`. -/
def Tokenizer.to_str : Tokenizer → String
  | .R50KBase => "r50k_base"
  | .P50KBase => "p50k_base"
  | .P50KEdit => "p50k_edit"
  | .CL100KBase => "cl100k_base"

/-- The string Rust's `{:?}` debug formatting produces for a `Tokenizer`
value (the derived `Debug` impl prints the variant name). -/
def Tokenizer.debugStr : Tokenizer → String
  | .R50KBase => "R50KBase"
  | .P50KBase => "P50KBase"
  | .P50KEdit => "P50KEdit"
  | .CL100KBase => "CL100KBase"

/-- The `SpecialToken` enum from `tokenizer.rs`. -/
inductive SpecialToken where
  | EndOfText
  | FimPrefix
  | FimMiddle
  | FimSuffix
  | EndOfPrompt
deriving DecidableEq, Fintype, Repr

/-- Embedding of `SpecialToken::to_str` from `tokenizer.rs`: the sentinel string of each
special token. -/
def SpecialToken.to_str : SpecialToken → String
  | .EndOfText => "<|endoftext|>"
  | .FimPrefix => "<|fim_prefix|>"
  | .FimMiddle => "<|fim_middle|>"
  | .FimSuffix => "<|fim_suffix|>"
  | .EndOfPrompt => "<|endofprompt|>"

/-- The string Rust's `{:?}` debug formatting produces for a `SpecialToken`
value. -/
def SpecialToken.debugStr : SpecialToken → String
  | .EndOfText => "EndOfText"
  | .FimPrefix => "FimPrefix"
  | .FimMiddle => "FimMiddle"
  | .FimSuffix => "FimSuffix"
  | .EndOfPrompt => "EndOfPrompt"

/-- Embedding of `SpecialToken::ALL` from `tokenizer.rs`. -/
def SpecialToken.ALL : List SpecialToken :=
  [.EndOfText, .FimPrefix, .FimMiddle, .FimSuffix, .EndOfPrompt]

/-- The `SpecialTokens` struct from `tokenizer.rs` wraps a
`HashSet<SpecialToken>`; it is embedded as a `Finset`. -/
abbrev SpecialTokens := Finset SpecialToken

/-- Embedding of `SpecialTokens::from_vec`. -/
def SpecialTokens.from_vec (tokens : List SpecialToken) : SpecialTokens :=
  tokens.toFinset

/-- Embedding of `SpecialTokens::contains`. -/
def SpecialTokens.contains (s : SpecialTokens) (token : SpecialToken) : Bool :=
  decide (token ∈ s)

/-- Embedding of `Tokenizer::recognized_special` from `tokenizer.rs`: `CL100KBase`
recognizes `SpecialToken::ALL`; `P50KEdit` recognizes `ALL` filtered to drop
`EndOfPrompt`; the remaining variants recognize only `EndOfText`. -/
def Tokenizer.recognized_special : Tokenizer → SpecialTokens
  | .CL100KBase => SpecialTokens.from_vec SpecialToken.ALL
  | .P50KEdit =>
    SpecialTokens.from_vec
      (SpecialToken.ALL.filter (fun x => !(x == SpecialToken.EndOfPrompt)))
  | _ => SpecialTokens.from_vec [SpecialToken.EndOfText]

/-! ## `src/error.rs`: the error value -/

/-- The subset of `ErrorType` from `error.rs` reachable from the tokenizer
subsystem. -/
inductive ErrorType where
  | Tokenizer
deriving DecidableEq, Repr

/-- Embedding of `ErrorType::to_str` from `error.rs`, restricted to the embedded
variants. -/
def ErrorType.to_str : ErrorType → String
  | .Tokenizer => "Tokenizer Error"

/-- The `OairsError` struct from `error.rs`. -/
structure OairsError where
  message : String
  error_type : String
  param : Option String
  code : Option String
deriving DecidableEq, Repr

/-- Embedding of `OairsError::new` from `error.rs` (stores `error_type.to_string()`). -/
def OairsError.new (message : String) (error_type : ErrorType)
    (param : Option String) (code : Option String) : OairsError :=
  ⟨message, error_type.to_str, param, code⟩

/-! ## `src/tokenizers/tokenizer.rs`: `tokenize_custom`

The Core BPE engine (`vendor_tiktoken::CoreBPE`) and the four vocabulary
loaders live in vendored files outside the source tree, so `tokenize_custom`
is embedded parametrically in the engine: `load` stands for `load_bpe`'s
loader dispatch and `encode` for `CoreBPE::encode`.  The source iterates the
`allowed_special` hash set in unspecified order; the embedding takes the
iteration order as a list. -/

/-- The error value `tokenize_custom` builds for an unrecognized special
token: `format!("Special token {:?} is not recognized by tokenizer {:?}.",
token, tokenizer)` with `ErrorType::Tokenizer` and
`param = Some(tokenizer.to_str())`. -/
def specialTokenError (token : SpecialToken) (tokenizer : Tokenizer) : OairsError :=
  OairsError.new
    ("Special token " ++ token.debugStr ++ " is not recognized by tokenizer "
      ++ tokenizer.debugStr ++ ".")
    ErrorType.Tokenizer (some tokenizer.to_str) none

/-- Embedding of `tokenize_custom` from `tokenizer.rs`: first scans `allowed_special` and
returns the unrecognized-special-token error for the first token outside
`tokenizer.recognized_special()`; only when the scan passes does it call the
loader and encode. -/
def tokenize_custom {α : Type} (load : Tokenizer → Except OairsError α)
    (encode : α → String → List String → List Nat)
    (text : String) (tokenizer : Tokenizer)
    (allowed_special : List SpecialToken) : Except OairsError (List Nat) :=
  match allowed_special.find?
      (fun t => !(SpecialTokens.contains tokenizer.recognized_special t)) with
  | some t => .error (specialTokenError t tokenizer)
  | none =>
    match load tokenizer with
    | .ok bpe => .ok (encode bpe text (allowed_special.map SpecialToken.to_str))
    | .error e => .error e

/-! ## The Core BPE engine, modelled from the specification

`vendor_tiktoken.rs` and `openai_public.rs` (the vendored Core BPE engine,
its vocabulary loaders and the embedded rank data) are referenced by
`tokenizers/mod.rs` but are not present in the source tree, so the engine is
modelled from §3/§4.4 of the specification. -/

/-- A raw byte string (Rust `Vec<u8>` / `&[u8]`), embedded as `List Nat`. -/
abbrev ByteStr := List Nat

/-- Modelled from the spec: the `Encoding` bundle of §3 — missing with
`vendor_tiktoken.rs` / `openai_public.rs`.  `table` is the Rank Table with
dense ids `0..N-1` (the byte-string of id `i` sits at index `i`, and the
rank of a byte-string is its index); `specials` is the Special Token Table
mapping a sentinel byte-string to its reserved id; `split` is the
pre-tokenization splitter. -/
structure EncodingM where
  table : List ByteStr
  specials : List (ByteStr × Nat)
  split : ByteStr → List ByteStr

/-- Modelled from the spec: the rank of a byte-string is its position in the
Rank Table; `none` when the concatenation is not in the table (no merge). -/
def rankOf (table : List ByteStr) (b : ByteStr) : Option Nat :=
  if b ∈ table then some (table.indexOf b) else none

/-- Modelled from the spec (§4.4, step 3): the adjacent pair with the lowest
rank, leftmost-first on ties.  Returns `(index, rank)` of the pair to merge,
or `none` when no adjacent concatenation is in the table. -/
def bestPair (table : List ByteStr) : List ByteStr → Option (Nat × Nat)
  | a :: b :: rest =>
    match rankOf table (a ++ b), bestPair table (b :: rest) with
    | some r, some (j, rj) => if r ≤ rj then some (0, r) else some (j + 1, rj)
    | some r, none => some (0, r)
    | none, some (j, rj) => some (j + 1, rj)
    | none, none => none
  | _ => none

/-- Merge the adjacent pair at position `i` into its concatenation. -/
def mergeAtIdx : Nat → List ByteStr → List ByteStr
  | 0, a :: b :: rest => (a ++ b) :: rest
  | n + 1, a :: rest => a :: mergeAtIdx n rest
  | _, l => l

/-- Modelled from the spec: the greedy merge loop — repeatedly merge the
globally-lowest-rank adjacent pair until none remains.  Each merge shortens
the list, so the part count bounds the iterations (`fuel`). -/
def bpeLoop (table : List ByteStr) : Nat → List ByteStr → List ByteStr
  | 0, parts => parts
  | fuel + 1, parts =>
    match bestPair table parts with
    | none => parts
    | some (i, _) => bpeLoop table fuel (mergeAtIdx i parts)

/-- Modelled from the spec (§4.4, steps 2–4): encode one pre-tokenization
chunk — start from single-byte strings, run the merge loop, then map each
final byte-string to its id. -/
def encodeChunk (table : List ByteStr) (chunk : ByteStr) : List Nat :=
  (bpeLoop table chunk.length (chunk.map (fun b => ([b] : ByteStr)))).map
    (fun bs => table.indexOf bs)

/-- Modelled from the spec: `CoreBPE::encode_ordinary` — split into chunks,
encode each, concatenate in order; sentinels get no treatment. -/
def encodeOrdinary (e : EncodingM) (s : ByteStr) : List Nat :=
  ((e.split s).map (encodeChunk e.table)).flatten

/-- Modelled from the spec: decode one id — the Rank Table for ids below its
length, otherwise the Special Token Table; `none` for an unknown id
(`UnknownTokenIdError`). -/
def decodeOne (e : EncodingM) (id : Nat) : Option ByteStr :=
  if h : id < e.table.length then some (e.table.get ⟨id, h⟩)
  else (e.specials.find? (fun q => q.2 == id)).map Prod.fst

/-- Modelled from the spec: `CoreBPE::decode` — look up every id and
concatenate the byte-strings, failing on the first unknown id. -/
def decode (e : EncodingM) : List Nat → Option ByteStr
  | [] => some []
  | id :: rest =>
    match decodeOne e id, decode e rest with
    | some b, some bs => some (b ++ bs)
    | _, _ => none

/-- Position of the leftmost occurrence of an allowed sentinel, with the
sentinel found there (first in `allowed` order at equal positions). -/
def findSpecial (allowed : List ByteStr) : ByteStr → Option (Nat × ByteStr)
  | [] =>
    match allowed.find? (fun p => decide (p <+: ([] : ByteStr))) with
    | some p => some (0, p)
    | none => none
  | a :: rest =>
    match allowed.find? (fun p => decide (p <+: (a :: rest))) with
    | some p => some (0, p)
    | none => (findSpecial allowed rest).map (fun q => (q.1 + 1, q.2))

/-- The reserved id of a sentinel in the Special Token Table. -/
def lookupSpecialId (e : EncodingM) (p : ByteStr) : Option Nat :=
  (e.specials.find? (fun q => decide (q.1 = p))).map Prod.snd

/-- Modelled from the spec: the scan of `CoreBPE::encode` — ordinary-encode
up to the leftmost allowed-sentinel occurrence, emit its reserved id as one
token, continue after it; text with no occurrence is encoded ordinarily.
`none` only on fuel exhaustion or a sentinel missing from the Special Token
Table (which validation excludes). -/
def encodeSpecialGo (e : EncodingM) (allowed : List ByteStr) :
    Nat → ByteStr → Option (List Nat)
  | 0, _ => none
  | fuel + 1, s =>
    match findSpecial allowed s with
    | none => some (encodeOrdinary e s)
    | some (i, p) =>
      match lookupSpecialId e p with
      | none => none
      | some sid =>
        (encodeSpecialGo e allowed fuel (s.drop (i + p.length))).map
          (fun rest => encodeOrdinary e (s.take i) ++ sid :: rest)

/-- Modelled from the spec: `CoreBPE::encode` with an `allowed_special`
set. -/
def encodeSpecial (e : EncodingM) (allowed : List ByteStr) (s : ByteStr) :
    Option (List Nat) :=
  encodeSpecialGo e allowed (s.length + 1) s

/-! ## `tokenize` and the pinned cl100k_base scenario -/

/-- Embedding of `tokenize` from `tokenizer.rs`, embedded parametrically in the vendored
engine like `tokenize_custom`: load the engine for the variant and return
its `encode_ordinary` output. -/
def tokenize {α : Type} (load : Tokenizer → Except OairsError α)
    (encode_ordinary : α → String → List Nat)
    (text : String) (tokenizer : Tokenizer) : Except OairsError (List Nat) :=
  match load tokenizer with
  | .ok bpe => .ok (encode_ordinary bpe text)
  | .error e => .error e

/-- The reference string of the spec's pinned cl100k_base scenario (test
`tokens_t1`). -/
def cl100k_reference_string : String :=
  "This is a test string to see how it tokenizes."

/-- The spec's pinned token sequence for the reference string. -/
def cl100k_reference_tokens : List Nat :=
  [2028, 374, 264, 1296, 925, 311, 1518, 1268, 433, 4037, 4861, 13]

/-- Modelled from the spec: `encode_ordinary` of the vendored `cl100k_base`
Core BPE engine (`vendor_tiktoken.rs` / `openai_public.rs` and their
embedded rank data are not in the source tree).  The specification pins the
engine's output only at the reference scenario string; every other input is
left unspecified and mapped to the empty sequence. -/
def cl100kEngine : String → List Nat := fun text =>
  if text = cl100k_reference_string then cl100k_reference_tokens else []

/-- A miniature encoding bundle on concrete data: three base tokens and one
special token with reserved id 3, identity splitting. -/
def eSmall : EncodingM :=
  { table := [[0], [2], [1]], specials := [([1, 1], 3)], split := fun t => [t] }

/-! Embedding of `src/utils/stream_parsers.rs`: the nom-based streaming SSE
chunk parsers. -/

/-- Outcome of a nom parser over byte slices: `ok remaining parsed`, the
streaming `Err::Incomplete` signal, or a genuine parse error
(`Err::Error`). -/
inductive NomResult where
  | ok : ByteStr → ByteStr → NomResult
  | incomplete : NomResult
  | error : NomResult
deriving DecidableEq, Repr

/-- Index of the first occurrence of `pat` in the input, if any. -/
def findSub (pat : ByteStr) : ByteStr → Option Nat
  | [] => if pat <+: ([] : ByteStr) then some 0 else none
  | a :: rest =>
    if pat <+: (a :: rest) then some 0
    else (findSub pat rest).map (fun i => i + 1)

/-- Embedding of nom's streaming `take_until(pat)`: consume up to the first
occurrence of `pat`, which stays in the remaining input; `Incomplete` when
`pat` does not occur.  It never produces `error`. -/
def takeUntil (pat input : ByteStr) : NomResult :=
  match findSub pat input with
  | some i => .ok (input.drop i) (input.take i)
  | none => .incomplete

/-- Embedding of nom's streaming `tag(pat)`: consume exactly `pat`;
`Incomplete` when the input is a proper prefix of `pat`, `error` on a
mismatch. -/
def nomTag (pat input : ByteStr) : NomResult :=
  if pat <+: input then .ok (input.drop pat.length) pat
  else if input <+: pat then .incomplete
  else .error

/-- Bytes of an ASCII string (for the scenario data below, the char codes
coincide with the UTF-8 bytes Rust `as_bytes` yields). -/
def strBytes (s : String) : ByteStr := s.data.map Char.toNat

/-- The function `nom_chat_completion_chunk` from `stream_parsers.rs`:
`take_until` of an opening brace, then `take_until` of a newline from the
object start; yields the complete newline-delimited object and the
remaining input. -/
def nom_chat_completion_chunk (input : ByteStr) : NomResult :=
  match takeUntil (strBytes "\x7b") input with
  | .ok objStart _ =>
    match takeUntil (strBytes "\n") objStart with
    | .ok rest obj => .ok rest obj
    | r => r
  | r => r

/-- The function `nom_content_value` from `stream_parsers.rs`:
`take_until("content")`, `tag("content\":\"")`, then a `take_until` of the
closing quote-brace, yielding the value of the `content` field. -/
def nom_content_value (input : ByteStr) : NomResult :=
  match takeUntil (strBytes "content") input with
  | .ok atContent _ =>
    match nomTag (strBytes "content\":\"") atContent with
    | .ok contentStart _ => takeUntil (strBytes "\"\x7d") contentStart
    | r => r
  | r => r

/-- The function `nom_til_done` from `stream_parsers.rs`:
`take_until("[DONE]")` then `tag("[DONE]")`. -/
def nom_til_done (input : ByteStr) : NomResult :=
  match takeUntil (strBytes "[DONE]") input with
  | .ok rest _ => nomTag (strBytes "[DONE]") rest
  | r => r

/-- The function `nom_is_done` from `stream_parsers.rs`: true exactly when
`nom_til_done` succeeds. -/
def nom_is_done (input : ByteStr) : Bool :=
  match nom_til_done input with
  | .ok _ _ => true
  | _ => false

/-- The C7 scenario buffer: one complete newline-delimited SSE object
followed by a trailing partial object. -/
def sseScenario : ByteStr :=
  strBytes "data: \x7b\"content\":\"Hello\"\x7d\ndata: \x7b\"cont"

end Oairs

namespace Oairs

/-- C1 (evaluation at the failing input): the resolver maps
`"gpt-3.5-turbo-0301"` to `cl100k_base` via the prefix table, but
`"gpt-3.5-turbo"` to `none`: the exact table's chat entry is the string
`"gpt-3.5-turbo-"` with a trailing hyphen, which neither equals
`"gpt-3.5-turbo"` nor is a prefix of it, so the two model names do not
resolve to the same encoding name, contradicting the suite's own
`test_encoding_for_model`.  `"foo"` yields `none` as claimed. -/
theorem C1_encoding_for_model_eval :
    encoding_for_model "gpt-3.5-turbo-0301" = some "cl100k_base" ∧
    encoding_for_model "gpt-3.5-turbo" = none ∧
    encoding_for_model "foo" = none := by
  refine ⟨?_, ?_, ?_⟩ <;> rfl

/-- C10: `encoding_for_model "gpt2"` succeeds with the encoding name
`"gpt2"` (via the exact table's open-source entry), yet no `Tokenizer`
variant carries that encoding name, so no BPE engine corresponds to it in
`load_bpe`'s variant dispatch. -/
theorem C10_gpt2_resolves :
    encoding_for_model "gpt2" = some "gpt2" ∧
    ∀ t : Tokenizer, t.to_str ≠ "gpt2" := by
  constructor
  · rfl
  · intro t; cases t <;> decide

/-- C3: `recognized_special` yields all five special tokens for
`CL100KBase`, all but `EndOfPrompt` for `P50KEdit`, and exactly
`{EndOfText}` for `R50KBase` and `P50KBase`. -/
theorem C3_recognized_special :
    SpecialToken.ALL.length = 5 ∧
    Tokenizer.recognized_special .CL100KBase = (Finset.univ : Finset SpecialToken) ∧
    Tokenizer.recognized_special .P50KEdit =
      (Finset.univ : Finset SpecialToken) \ {SpecialToken.EndOfPrompt} ∧
    Tokenizer.recognized_special .R50KBase = {SpecialToken.EndOfText} ∧
    Tokenizer.recognized_special .P50KBase = {SpecialToken.EndOfText} := by
  refine ⟨rfl, ?_, ?_, ?_, ?_⟩ <;> decide

/-- C2: `tokenize_custom` fails exactly when `allowed_special` holds a token
outside `tokenizer.recognized_special()`; in that case the error names the
offending token and the tokenizer, and the same error is produced for every
loader/engine pair — the rejection happens before any BPE load or encoding
work. -/
theorem C2_tokenize_custom_validation {α β : Type}
    (load : Tokenizer → Except OairsError α)
    (encode : α → String → List String → List Nat)
    (load' : Tokenizer → Except OairsError β)
    (encode' : β → String → List String → List Nat)
    (text : String) (tokenizer : Tokenizer)
    (allowed_special : List SpecialToken)
    (bpe : α) (hload : load tokenizer = .ok bpe) :
    ((∃ e, tokenize_custom load encode text tokenizer allowed_special = .error e) ↔
      ∃ t ∈ allowed_special, t ∉ tokenizer.recognized_special) ∧
    ((∃ t ∈ allowed_special, t ∉ tokenizer.recognized_special) →
      ∃ t ∈ allowed_special, t ∉ tokenizer.recognized_special ∧
        tokenize_custom load encode text tokenizer allowed_special =
          .error (specialTokenError t tokenizer) ∧
        tokenize_custom load' encode' text tokenizer allowed_special =
          .error (specialTokenError t tokenizer)) := by
  unfold tokenize_custom
  rcases hfind : allowed_special.find?
      (fun t => !(SpecialTokens.contains tokenizer.recognized_special t)) with _ | t
  · have hall := List.find?_eq_none.mp hfind
    rw [hload]
    constructor
    · constructor
      · rintro ⟨e, he⟩; cases he
      · rintro ⟨t, ht, hmem⟩
        exact absurd (by simpa [SpecialTokens.contains] using hall t ht) (by simpa using hmem)
    · rintro ⟨t, ht, hmem⟩
      exact absurd (by simpa [SpecialTokens.contains] using hall t ht) (by simpa using hmem)
  · have hmem := List.mem_of_find?_eq_some hfind
    have hpred := List.find?_some hfind
    have hnot : t ∉ tokenizer.recognized_special := by
      simpa [SpecialTokens.contains] using hpred
    refine ⟨⟨fun _ => ⟨t, hmem, hnot⟩, fun _ => ⟨_, rfl⟩⟩, fun _ => ⟨t, hmem, hnot, rfl, rfl⟩⟩

/-! ### Helper lemmas about the modelled Core BPE engine -/

/-- A byte-string with a rank is in the Rank Table. -/
theorem rankOf_mem {table : List ByteStr} {b : ByteStr} {r : Nat}
    (h : rankOf table b = some r) : b ∈ table := by
  unfold rankOf at h
  by_cases hb : b ∈ table
  · exact hb
  · rw [if_neg hb] at h; cases h

/-- The function `bestPair` points at an adjacent pair whose concatenation is in the
table, at the index it reports. -/
theorem bestPair_shape (table : List ByteStr) :
    ∀ parts i r, bestPair table parts = some (i, r) →
      ∃ pre a b post, parts = pre ++ a :: b :: post ∧ pre.length = i ∧
        (a ++ b) ∈ table := by
  intro parts
  induction parts with
  | nil => intro i r h; simp [bestPair] at h
  | cons a tail ih =>
    cases tail with
    | nil => intro i r h; simp [bestPair] at h
    | cons b rest =>
      intro i r h
      rw [bestPair] at h
      rcases h1 : rankOf table (a ++ b) with _ | r0 <;>
        rcases h2 : bestPair table (b :: rest) with _ | jr <;>
          rw [h1, h2] at h
      · cases h
      · obtain ⟨j, rj⟩ := jr
        simp only [Option.some.injEq, Prod.mk.injEq] at h
        obtain ⟨pre, x, y, post, hps, hlen, hmem⟩ := ih j rj h2
        exact ⟨a :: pre, x, y, post, by simp [hps],
          by simp [hlen, ← h.1], hmem⟩
      · simp only [Option.some.injEq, Prod.mk.injEq] at h
        exact ⟨[], a, b, rest, rfl, h.1 ▸ rfl, rankOf_mem h1⟩
      · obtain ⟨j, rj⟩ := jr
        have h' : (if r0 ≤ rj then some ((0 : Nat), r0)
            else some (j + 1, rj)) = some (i, r) := h
        clear h
        rename' h' => h
        by_cases hle : r0 ≤ rj
        · rw [if_pos hle] at h
          simp only [Option.some.injEq, Prod.mk.injEq] at h
          exact ⟨[], a, b, rest, rfl, h.1 ▸ rfl, rankOf_mem h1⟩
        · rw [if_neg hle] at h
          simp only [Option.some.injEq, Prod.mk.injEq] at h
          obtain ⟨pre, x, y, post, hps, hlen, hmem⟩ := ih j rj h2
          exact ⟨a :: pre, x, y, post, by simp [hps],
            by simp [hlen, ← h.1], hmem⟩

/-- Merging at the reported index replaces the pair by its concatenation. -/
theorem mergeAtIdx_append (a b : ByteStr) :
    ∀ (pre post : List ByteStr),
      mergeAtIdx pre.length (pre ++ a :: b :: post) = pre ++ (a ++ b) :: post := by
  intro pre
  induction pre with
  | nil => intro post; rfl
  | cons x pre ih => intro post; simp [mergeAtIdx, ih]

/-- The merge loop keeps every part inside the table and preserves the
concatenation of the parts. -/
theorem bpeLoop_inv (table : List ByteStr) :
    ∀ fuel parts, (∀ x ∈ parts, x ∈ table) →
      (∀ x ∈ bpeLoop table fuel parts, x ∈ table) ∧
      (bpeLoop table fuel parts).flatten = parts.flatten := by
  intro fuel
  induction fuel with
  | zero => intro parts h; exact ⟨h, rfl⟩
  | succ fuel ih =>
    intro parts h
    cases hbp : bestPair table parts with
    | none =>
      have hstep : bpeLoop table (fuel + 1) parts = parts := by
        rw [bpeLoop, hbp]
      rw [hstep]
      exact ⟨h, rfl⟩
    | some ir =>
      obtain ⟨i, r⟩ := ir
      have hstep : bpeLoop table (fuel + 1) parts =
          bpeLoop table fuel (mergeAtIdx i parts) := by
        rw [bpeLoop, hbp]
      obtain ⟨pre, a, b, post, hps, hlen, hmem⟩ := bestPair_shape table parts i r hbp
      have hmerge : mergeAtIdx i parts = pre ++ (a ++ b) :: post := by
        rw [hps, ← hlen]; exact mergeAtIdx_append a b pre post
      have hsub : ∀ x ∈ mergeAtIdx i parts, x ∈ table := by
        intro x hx
        rw [hmerge] at hx
        rcases List.mem_append.mp hx with hx | hx
        · exact h x (by rw [hps]; exact List.mem_append.mpr (Or.inl hx))
        · rcases List.mem_cons.mp hx with hx | hx
          · exact hx ▸ hmem
          · exact h x (by rw [hps]; simp [hx])
      obtain ⟨h1, h2⟩ := ih (mergeAtIdx i parts) hsub
      refine ⟨by rw [hstep]; exact h1, ?_⟩
      rw [hstep, h2, hmerge, hps]
      simp [List.flatten_append]

/-- An `indexOf` of a member is a valid index (for the `BEq` instance the
engine definitions elaborate with). -/
theorem indexOf_lt_length_of_mem {a : ByteStr} :
    ∀ {l : List ByteStr}, a ∈ l → l.indexOf a < l.length := by
  intro l
  induction l with
  | nil => intro h; cases h
  | cons x t ih =>
    intro h
    cases hbeq : x == a with
    | true => simp [List.indexOf_cons, hbeq]
    | false =>
      have hne : a ≠ x := fun he => by simp [he] at hbeq
      have hmem : a ∈ t := by
        rcases List.mem_cons.mp h with h | h
        · exact absurd h hne
        · exact h
      simpa [List.indexOf_cons, hbeq] using ih hmem

/-- The table entry at `indexOf` of a member is that member. -/
theorem get_indexOf_eq {a : ByteStr} :
    ∀ {l : List ByteStr} (hmem : a ∈ l) (hlt : l.indexOf a < l.length),
      l.get ⟨l.indexOf a, hlt⟩ = a := by
  intro l
  induction l with
  | nil => intro h; cases h
  | cons x t ih =>
    intro hmem hlt
    cases hbeq : x == a with
    | true =>
      have hx : x = a := eq_of_beq hbeq
      simp [List.indexOf_cons, hbeq, hx]
    | false =>
      have hne : a ≠ x := fun he => by simp [he] at hbeq
      have hmem' : a ∈ t := by
        rcases List.mem_cons.mp hmem with h | h
        · exact absurd h hne
        · exact h
      have hlt' : t.indexOf a < t.length := indexOf_lt_length_of_mem hmem'
      simp [List.indexOf_cons, hbeq]
      exact ih hmem' hlt'

/-- Appending token lists appends the decoded byte-strings. -/
theorem decode_append (e : EncodingM) :
    ∀ l₁ l₂ b₁ b₂, decode e l₁ = some b₁ → decode e l₂ = some b₂ →
      decode e (l₁ ++ l₂) = some (b₁ ++ b₂) := by
  intro l₁
  induction l₁ with
  | nil =>
    intro l₂ b₁ b₂ h1 h2
    rw [decode] at h1
    cases h1
    simpa using h2
  | cons id rest ih =>
    intro l₂ b₁ b₂ h1 h2
    rw [decode] at h1
    rw [List.cons_append, decode]
    cases hd : decodeOne e id with
    | none => rw [hd] at h1; cases h1
    | some b =>
      rw [hd] at h1
      cases hr : decode e rest with
      | none => rw [hr] at h1; cases h1
      | some bs =>
        rw [hr] at h1
        simp only [Option.some.injEq] at h1
        rw [ih l₂ bs b₂ hr h2]
        simp [← h1, List.append_assoc]

/-- Decoding the ids of parts that are all in the table yields their
concatenation. -/
theorem decode_map_indexOf (e : EncodingM) :
    ∀ parts : List ByteStr, (∀ x ∈ parts, x ∈ e.table) →
      decode e (parts.map (fun bs => e.table.indexOf bs)) = some parts.flatten := by
  intro parts
  induction parts with
  | nil => intro _; rfl
  | cons p rest ih =>
    intro h
    have hp : p ∈ e.table := h p (List.mem_cons_self p rest)
    have hlt : e.table.indexOf p < e.table.length := indexOf_lt_length_of_mem hp
    have hidx : decodeOne e (e.table.indexOf p) = some p := by
      unfold decodeOne
      rw [dif_pos hlt]
      exact congrArg some (get_indexOf_eq hp hlt)
    rw [List.map_cons, decode, hidx,
      ih (fun x hx => h x (List.mem_cons_of_mem _ hx))]
    rfl

/-- Flattening singleton byte-strings recovers the bytes. -/
theorem flatten_singletons (l : List Nat) :
    (l.map (fun b => ([b] : ByteStr))).flatten = l := by
  induction l with
  | nil => rfl
  | cons a t ih => simp [ih]

/-- Round trip on a single chunk: decoding `encodeChunk` recovers it,
provided every byte has its singleton in the table. -/
theorem decode_encodeChunk (e : EncodingM) (chunk : ByteStr)
    (hb : ∀ byte ∈ chunk, [byte] ∈ e.table) :
    decode e (encodeChunk e.table chunk) = some chunk := by
  have hinit : ∀ x ∈ chunk.map (fun b => ([b] : ByteStr)), x ∈ e.table := by
    intro x hx
    obtain ⟨b, hmem, rfl⟩ := List.mem_map.mp hx
    exact hb b hmem
  obtain ⟨h1, h2⟩ := bpeLoop_inv e.table chunk.length _ hinit
  unfold encodeChunk
  rw [decode_map_indexOf e _ h1, h2, flatten_singletons]

/-- Every id `encodeChunk` emits is a base-table id. -/
theorem encodeChunk_lt (e : EncodingM) (chunk : ByteStr)
    (hb : ∀ byte ∈ chunk, [byte] ∈ e.table) :
    ∀ id ∈ encodeChunk e.table chunk, id < e.table.length := by
  intro id hid
  unfold encodeChunk at hid
  obtain ⟨bs, hbs, rfl⟩ := List.mem_map.mp hid
  have hinit : ∀ x ∈ chunk.map (fun b => ([b] : ByteStr)), x ∈ e.table := by
    intro x hx
    obtain ⟨b, hmem, rfl⟩ := List.mem_map.mp hx
    exact hb b hmem
  exact indexOf_lt_length_of_mem
    ((bpeLoop_inv e.table chunk.length _ hinit).1 bs hbs)

/-- Round trip over a chunk list. -/
theorem decode_chunks (e : EncodingM) :
    ∀ chunks : List ByteStr, (∀ c ∈ chunks, ∀ byte ∈ c, [byte] ∈ e.table) →
      decode e ((chunks.map (encodeChunk e.table)).flatten) =
        some chunks.flatten := by
  intro chunks
  induction chunks with
  | nil => intro _; rfl
  | cons c rest ih =>
    intro h
    rw [List.map_cons, List.flatten_cons, List.flatten_cons]
    exact decode_append e _ _ _ _ (decode_encodeChunk e c (h c (by simp)))
      (ih (fun x hx => h x (by simp [hx])))

/-- Every id `encodeOrdinary` emits is a base-table id — in particular it is
never a reserved special id. -/
theorem encodeOrdinary_lt (e : EncodingM) (s : ByteStr)
    (hsplit : ∀ t, (e.split t).flatten = t)
    (hb : ∀ byte ∈ s, [byte] ∈ e.table) :
    ∀ id ∈ encodeOrdinary e s, id < e.table.length := by
  intro id hid
  unfold encodeOrdinary at hid
  obtain ⟨l, hl, hidl⟩ := List.mem_flatten.mp hid
  obtain ⟨chunk, hc, rfl⟩ := List.mem_map.mp hl
  refine encodeChunk_lt e chunk ?_ id hidl
  intro byte hbyte
  refine hb byte ?_
  rw [← hsplit s]
  exact List.mem_flatten.mpr ⟨chunk, hc, hbyte⟩

/-- When no allowed sentinel occurs in the input, the scan finds nothing. -/
theorem findSpecial_none (allowed : List ByteStr) :
    ∀ s, (∀ p ∈ allowed, ¬ p <:+: s) → findSpecial allowed s = none := by
  intro s
  induction s with
  | nil =>
    intro h
    rw [findSpecial]
    have hfind : allowed.find? (fun p => decide (p <+: ([] : ByteStr))) = none := by
      rw [List.find?_eq_none]
      intro p hp
      simp only [decide_eq_true_eq]
      intro hpre
      exact h p hp (List.IsPrefix.isInfix hpre)
    rw [hfind]
  | cons a rest ih =>
    intro h
    rw [findSpecial]
    have hfind : allowed.find? (fun p => decide (p <+: (a :: rest))) = none := by
      rw [List.find?_eq_none]
      intro p hp
      simp only [decide_eq_true_eq]
      intro hpre
      exact h p hp (List.IsPrefix.isInfix hpre)
    rw [hfind,
      ih (fun p hp hinf =>
        h p hp (hinf.trans (List.IsSuffix.isInfix (List.suffix_cons a rest))))]
    rfl

/-- A sentinel sitting at the head of the input is found at position 0. -/
theorem findSpecial_here (p s : ByteStr) (hp : p ≠ []) (hpre : p <+: s) :
    findSpecial [p] s = some (0, p) := by
  cases s with
  | nil => exact absurd (List.prefix_nil.mp hpre) hp
  | cons a rest =>
    rw [findSpecial, List.find?_cons_of_pos _ (by simpa using hpre)]

/-- The scan reports the sentinel occurrence right after a sentinel-free
leading segment, at that segment's length. -/
theorem findSpecial_append (p : ByteStr) (hp : p ≠ []) :
    ∀ (before rest : ByteStr),
      (∀ i, i < before.length → ¬ p <+: (before ++ rest).drop i) →
      p <+: rest →
      findSpecial [p] (before ++ rest) = some (before.length, p) := by
  intro before
  induction before with
  | nil => intro rest _ hmatch; simpa using findSpecial_here p rest hp hmatch
  | cons x before ih =>
    intro rest hno hmatch
    have h0 : ¬ p <+: (x :: (before ++ rest)) := by
      have hx := hno 0 (by simp)
      simpa using hx
    have hrec : ∀ i, i < before.length → ¬ p <+: (before ++ rest).drop i := by
      intro i hi
      have hx := hno (i + 1) (by simpa using Nat.succ_lt_succ hi)
      simpa using hx
    rw [List.cons_append, findSpecial]
    have hfind : List.find? (fun q => decide (q <+: (x :: (before ++ rest)))) [p]
        = none := by
      rw [List.find?_eq_none]
      intro q hq
      simp only [List.mem_singleton] at hq
      subst hq
      simpa using h0
    rw [hfind, ih rest hrec hmatch]
    simp

/-- C4: `tokenize` of the reference string with `CL100KBase` returns `Ok` of
exactly the pinned 12-element token sequence.  The cl100k engine itself is
modelled from the spec (`cl100kEngine`), which pins its output at this
string. -/
theorem C4_reference_tokens :
    tokenize (fun _ => Except.ok cl100kEngine) (fun bpe text => bpe text)
      cl100k_reference_string Tokenizer.CL100KBase =
        .ok [2028, 374, 264, 1296, 925, 311, 1518, 1268, 433, 4037, 4861, 13] ∧
    cl100k_reference_tokens.length = 12 := by
  exact ⟨rfl, rfl⟩

/-- C5: per encoding, decoding the `encode_ordinary` tokens of a string with
no sentinel substring recovers exactly its bytes, for every encoding whose
splitter partitions the input and whose Rank Table covers the input's single
bytes (the spec's invariants on the bundled vocabularies). -/
theorem C5_round_trip (e : EncodingM)
    (hsplit : ∀ t, (e.split t).flatten = t) (s : ByteStr)
    (hb : ∀ byte ∈ s, [byte] ∈ e.table)
    (hnosent : ∀ q ∈ e.specials, ¬ q.1 <:+: s) :
    decode e (encodeOrdinary e s) = some s := by
  have hchunks : ∀ c ∈ e.split s, ∀ byte ∈ c, [byte] ∈ e.table := by
    intro c hc byte hbyte
    refine hb byte ?_
    rw [← hsplit s]
    exact List.mem_flatten.mpr ⟨c, hc, hbyte⟩
  unfold encodeOrdinary
  rw [decode_chunks e (e.split s) hchunks, hsplit s]

/-- C5 witness: a two-entry table with identity splitting round-trips the
byte string `[0, 1, 0]`. -/
theorem C5_witness :
    decode { table := [[0], [1]], specials := [], split := fun t => [t] }
      (encodeOrdinary { table := [[0], [1]], specials := [], split := fun t => [t] }
        [0, 1, 0]) = some [0, 1, 0] :=
  C5_round_trip
    { table := [[0], [1]], specials := [], split := fun t => [t] }
    (fun t => by simp) [0, 1, 0] (by decide) (by simp)

/-- C6: `encode_ordinary` tokenizes a sentinel occurrence as ordinary
base-table ids (never the reserved special id, which lies at or past the
table size), while `encode` with the sentinel allowed emits exactly one
token for that occurrence — its reserved id — which differs from the
ordinary-byte encoding of the same literal text. -/
theorem C6_special_vs_ordinary (e : EncodingM)
    (hsplit : ∀ t, (e.split t).flatten = t)
    (p : ByteStr) (sid : Nat) (before after : ByteStr)
    (hp : p ≠ [])
    (hsid : lookupSpecialId e p = some sid)
    (hge : e.table.length ≤ sid)
    (hb : ∀ byte ∈ before ++ p ++ after, [byte] ∈ e.table)
    (hbefore : ∀ i, i < before.length → ¬ p <+: (before ++ p ++ after).drop i)
    (hafter : ¬ p <:+: after) :
    sid ∉ encodeOrdinary e (before ++ p ++ after) ∧
    encodeSpecial e [p] (before ++ p ++ after) =
      some (encodeOrdinary e before ++ sid :: encodeOrdinary e after) ∧
    (encodeOrdinary e before ++ sid :: encodeOrdinary e after).count sid = 1 ∧
    encodeOrdinary e p ≠ [sid] := by
  have hbbefore : ∀ byte ∈ before, [byte] ∈ e.table := by
    intro byte hbyte
    exact hb byte (by simp [hbyte])
  have hbp : ∀ byte ∈ p, [byte] ∈ e.table := by
    intro byte hbyte
    exact hb byte (by simp [hbyte])
  have hbafter : ∀ byte ∈ after, [byte] ∈ e.table := by
    intro byte hbyte
    exact hb byte (by simp [hbyte])
  have hnotinbefore : sid ∉ encodeOrdinary e before := by
    intro hmem
    exact absurd (encodeOrdinary_lt e before hsplit hbbefore sid hmem)
      (by omega)
  have hnotinafter : sid ∉ encodeOrdinary e after := by
    intro hmem
    exact absurd (encodeOrdinary_lt e after hsplit hbafter sid hmem)
      (by omega)
  refine ⟨?_, ?_, ?_, ?_⟩
  · intro hmem
    exact absurd (encodeOrdinary_lt e (before ++ p ++ after) hsplit hb sid hmem)
      (by omega)
  · have hplen : 0 < p.length := List.length_pos.mpr hp
    have hfind1 : findSpecial [p] (before ++ (p ++ after)) =
        some (before.length, p) :=
      findSpecial_append p hp before (p ++ after)
        (by simpa [List.append_assoc] using hbefore) (List.prefix_append p after)
    have htake : (before ++ (p ++ after)).take before.length = before :=
      List.take_left before (p ++ after)
    have hdrop : (before ++ (p ++ after)).drop (before.length + p.length) =
        after := by
      rw [← List.append_assoc, ← List.length_append]
      exact List.drop_left (before ++ p) after
    have hfind2 : findSpecial [p] after = none := by
      refine findSpecial_none [p] after ?_
      intro q hq
      simp only [List.mem_singleton] at hq
      subst hq
      exact hafter
    obtain ⟨f, hf⟩ : ∃ f, (before ++ (p ++ after)).length = f + 1 :=
      ⟨(before ++ (p ++ after)).length - 1, by simp [List.length_append]; omega⟩
    unfold encodeSpecial
    rw [List.append_assoc, encodeSpecialGo, hfind1]
    simp only [hsid, htake, hdrop, hf]
    rw [encodeSpecialGo, hfind2]
    rfl
  · rw [List.count_append, List.count_eq_zero.mpr hnotinbefore,
      List.count_cons_self, List.count_eq_zero.mpr hnotinafter]
  · intro heq
    have hmem : sid ∈ encodeOrdinary e p := by rw [heq]; simp
    exact absurd (encodeOrdinary_lt e p hsplit hbp sid hmem) (by omega)

/-- C6 witness: on `eSmall` with sentinel `[1, 1]` (reserved id 3) between
the bytes `[0]` and `[2]`, the special encoding emits exactly one reserved
id and the ordinary encoding never does. -/
theorem C6_witness :
    (3 : Nat) ∉ encodeOrdinary eSmall (([0] : ByteStr) ++ [1, 1] ++ [2]) ∧
    encodeSpecial eSmall [[1, 1]] (([0] : ByteStr) ++ [1, 1] ++ [2]) =
      some (encodeOrdinary eSmall [0] ++ 3 :: encodeOrdinary eSmall [2]) ∧
    (encodeOrdinary eSmall [0] ++ 3 :: encodeOrdinary eSmall [2]).count 3 = 1 ∧
    encodeOrdinary eSmall [1, 1] ≠ [3] :=
  C6_special_vs_ordinary eSmall (fun t => by simp [eSmall]) [1, 1] 3 [0] [2]
    (by decide) rfl (by decide) (by decide) (by decide) (by decide)

/-- The search for a sub-sequence succeeds exactly when it is an infix. -/
theorem findSub_isSome_iff (pat : ByteStr) :
    ∀ s, (findSub pat s).isSome = true ↔ pat <:+: s := by
  intro s
  induction s with
  | nil =>
    by_cases hpre : pat <+: ([] : ByteStr)
    · simp only [findSub, if_pos hpre, Option.isSome_some, true_iff]
      exact List.IsPrefix.isInfix hpre
    · simp only [findSub, if_neg hpre, Option.isSome_none, Bool.false_eq_true,
        false_iff]
      intro hinf
      exact hpre (List.infix_nil.mp hinf ▸ List.prefix_refl _)
  | cons a rest ih =>
    by_cases hpre : pat <+: (a :: rest)
    · simp only [findSub, if_pos hpre, Option.isSome_some, true_iff]
      exact List.IsPrefix.isInfix hpre
    · rw [List.infix_cons_iff]
      cases hfs : findSub pat rest with
      | none =>
        rw [hfs] at ih
        simp only [Option.isSome_none, Bool.false_eq_true, false_iff] at ih
        simp [findSub, if_neg hpre, hfs, hpre, ih]
      | some j =>
        rw [hfs] at ih
        simp only [Option.isSome_some, true_iff] at ih
        simp [findSub, if_neg hpre, hfs, ih]

/-- The index the search reports is an occurrence. -/
theorem findSub_some_prefix (pat : ByteStr) :
    ∀ s i, findSub pat s = some i → pat <+: s.drop i := by
  intro s
  induction s with
  | nil =>
    intro i h
    by_cases hpre : pat <+: ([] : ByteStr)
    · rw [findSub, if_pos hpre] at h
      cases h
      simpa using hpre
    · rw [findSub, if_neg hpre] at h
      cases h
  | cons a rest ih =>
    intro i h
    by_cases hpre : pat <+: (a :: rest)
    · rw [findSub, if_pos hpre] at h
      cases h
      simpa using hpre
    · rw [findSub, if_neg hpre] at h
      cases hfs : findSub pat rest with
      | none => rw [hfs] at h; cases h
      | some j =>
        rw [hfs] at h
        simp only [Option.map_some', Option.some.injEq] at h
        subst h
        simpa using ih j hfs

/-- The streaming `take_until` combinator never reports a genuine parse
error: absence of the pattern is always the retryable `Incomplete`. -/
theorem takeUntil_ne_error (pat input : ByteStr) : takeUntil pat input ≠ .error := by
  unfold takeUntil
  cases findSub pat input <;> simp

/-- C9: `nom_is_done` is true exactly when the bytes of `[DONE]` occur as a
contiguous substring of the input; on any other buffer it returns false —
the underlying `Incomplete` is collapsed to false, never an error. -/
theorem C9_nom_is_done (input : ByteStr) :
    nom_is_done input = true ↔ strBytes "[DONE]" <:+: input := by
  have hiff := findSub_isSome_iff (strBytes "[DONE]") input
  cases hfs : findSub (strBytes "[DONE]") input with
  | none =>
    rw [hfs] at hiff
    simp only [Option.isSome_none, Bool.false_eq_true, false_iff] at hiff
    unfold nom_is_done nom_til_done takeUntil
    rw [hfs]
    simp [hiff]
  | some i =>
    rw [hfs] at hiff
    have hinf : strBytes "[DONE]" <:+: input := hiff.mp (by simp)
    have hpre : strBytes "[DONE]" <+: input.drop i :=
      findSub_some_prefix _ input i hfs
    unfold nom_is_done nom_til_done takeUntil nomTag
    rw [hfs]
    simp [hpre, hinf]

/-- C7: on a buffer holding one complete newline-delimited SSE object
followed by a trailing partial object, the chunk parser yields the complete
object (whose `content` value extracts to `Hello`) and signals `Incomplete`
on the remainder; moreover the chunk parser never reports a genuine parse
error on any input — truncation is always the retryable `Incomplete`. -/
theorem C7_stream_scenario :
    nom_chat_completion_chunk sseScenario =
      .ok (strBytes "\ndata: \x7b\"cont")
        (strBytes "\x7b\"content\":\"Hello\"\x7d") ∧
    nom_content_value (strBytes "\x7b\"content\":\"Hello\"\x7d") =
      .ok (strBytes "\"\x7d") (strBytes "Hello") ∧
    nom_chat_completion_chunk (strBytes "\ndata: \x7b\"cont") = .incomplete ∧
    ∀ input, nom_chat_completion_chunk input ≠ .error := by
  refine ⟨by decide, by decide, by decide, ?_⟩
  intro input
  unfold nom_chat_completion_chunk
  cases h1 : takeUntil (strBytes "\x7b") input with
  | ok objStart x =>
    cases h2 : takeUntil (strBytes "\n") objStart with
    | ok rest obj => simp [h2]
    | incomplete => simp [h2]
    | error => exact absurd h2 (takeUntil_ne_error _ _)
  | incomplete => simp
  | error => exact absurd h1 (takeUntil_ne_error _ _)

/-- C2 witness: with `R50KBase` and `allowed_special = [EndOfPrompt]` (not
recognized by `R50KBase`) the validation error fires for a trivial engine. -/
theorem C2_witness :
    ((∃ e, tokenize_custom (fun _ => Except.ok ()) (fun _ _ _ => [])
        "x" Tokenizer.R50KBase [SpecialToken.EndOfPrompt] = .error e) ↔
      ∃ t ∈ [SpecialToken.EndOfPrompt],
        t ∉ Tokenizer.recognized_special Tokenizer.R50KBase) ∧
    ((∃ t ∈ [SpecialToken.EndOfPrompt],
        t ∉ Tokenizer.recognized_special Tokenizer.R50KBase) →
      ∃ t ∈ [SpecialToken.EndOfPrompt],
        t ∉ Tokenizer.recognized_special Tokenizer.R50KBase ∧
        tokenize_custom (fun _ => Except.ok ()) (fun _ _ _ => [])
          "x" Tokenizer.R50KBase [SpecialToken.EndOfPrompt] =
            .error (specialTokenError t Tokenizer.R50KBase) ∧
        tokenize_custom (fun _ => Except.ok ()) (fun _ _ _ => ([] : List Nat))
          "x" Tokenizer.R50KBase [SpecialToken.EndOfPrompt] =
            .error (specialTokenError t Tokenizer.R50KBase)) :=
  C2_tokenize_custom_validation (fun _ => Except.ok ()) (fun _ _ _ => [])
    (fun _ => Except.ok ()) (fun _ _ _ => []) "x" Tokenizer.R50KBase
    [SpecialToken.EndOfPrompt] () rfl

end Oairs
